import Mathlib

/-!
Verification of the process-supervision backend of the project-manager
application (Rust sources under src-tauri/src). The Rust functions are
shallowly embedded as Lean functions: machine integers become Nat,
fallible Rust code returning Result becomes Except, and interactions with
external Unix utilities (ps, pgrep, kill, lsof) are abstracted into an
environment record of pure functions describing what each invocation
returns. Claims about the specification are then proved as theorems over
these definitions.
-/

namespace ProjectManager

/-! ### Character constants (written via code points to keep sources plain) -/

def squote : Char := Char.ofNat 39

def dquote : Char := Char.ofNat 34

def backtick : Char := Char.ofNat 96

def backslashChar : Char := Char.ofNat 92

def nlChar : Char := Char.ofNat 10

def crChar : Char := Char.ofNat 13

def nulChar : Char := Char.ofNat 0

/-! ### The error type, from src-tauri/src/error.rs (enum AppError) -/

inductive AppError where
  | ioError (msg : String)
  | processError (msg : String)
  | commandError (msg : String)
  | parseError (msg : String)
  | notFound (msg : String)
  | utf8Error (msg : String)
deriving DecidableEq, Repr

/-! ### Embedding of validation.rs -/

/-- From validation.rs: `validate_pid`. PIDs are u32 in Rust; modelled as Nat. -/
def validate_pid (pid : Nat) : Except AppError Nat :=
  if pid = 0 then
    .error (.commandError "Invalid PID: 0 is reserved for the kernel and not a valid process")
  else if pid > 10000000 then
    .error (.commandError ("Invalid PID: " ++ toString pid ++ " (out of range)"))
  else
    .ok pid

/-- From validation.rs: the constant ALLOWED_COMMANDS. -/
def ALLOWED_COMMANDS : List String := ["npm", "pnpm", "yarn", "bun", "deno"]

/-- From validation.rs: the dangerous character array in `validate_command`. -/
def dangerous_chars : List Char :=
  [';', '&', '|', backtick, '$', '(', ')', '<', '>', nlChar, crChar]

/-- From validation.rs: `validate_command`.
Error message payloads are abbreviated; only the error constructor and the
accept/reject decision are relevant to the claims. -/
def validate_command (command : String) : Except AppError Unit :=
  if command = "" then
    .error (.commandError "Command cannot be empty")
  else if command.data.contains '/' || command.data.contains backslashChar then
    .error (.commandError "Invalid command: contains path separators. Only command names are allowed.")
  else if command.data.any (fun c => dangerous_chars.contains c) then
    .error (.commandError "Invalid command: contains dangerous characters")
  else if !(ALLOWED_COMMANDS.contains command) then
    .error (.commandError "Invalid command: not in the allowed list")
  else
    .ok ()

/-- From validation.rs: the dangerous character array in `validate_command_args`
(the same set as for commands, plus the NUL byte). -/
def dangerous_chars_args : List Char :=
  [';', '&', '|', backtick, '$', '(', ')', '<', '>', nlChar, crChar, nulChar]

/-- From validation.rs: the char-name mapping used when reporting a dangerous
character inside an argument. -/
def dangerous_char_name (c : Char) : String :=
  if c = nlChar then "newline"
  else if c = crChar then "carriage return"
  else if c = nulChar then "null byte"
  else String.singleton c

/-- From validation.rs: the per-argument checks of the loop body in
`validate_command_args` (length cap in bytes, then dangerous characters).
Rust `String::len` counts UTF-8 bytes, hence `utf8ByteSize`. -/
def check_arg (index : Nat) (arg : String) : Except AppError Unit :=
  if arg.utf8ByteSize > 1024 then
    .error (.commandError ("Argument " ++ toString index ++ " is too long: " ++
      toString arg.utf8ByteSize ++ " characters (maximum 1024)"))
  else
    match arg.data.find? (fun c => dangerous_chars_args.contains c) with
    | some c =>
        .error (.commandError ("Invalid argument " ++ toString index ++
          ": contains dangerous character " ++ dangerous_char_name c))
    | none => .ok ()

/-- The indexed iteration of `validate_command_args` over the argument list. -/
def validate_args_loop : Nat → List String → Except AppError Unit
  | _, [] => .ok ()
  | i, a :: rest =>
    match check_arg i a with
    | .error e => .error e
    | .ok _ => validate_args_loop (i + 1) rest

/-- From validation.rs: `validate_command_args`. -/
def validate_command_args (args : List String) : Except AppError Unit :=
  if args.length > 100 then
    .error (.commandError ("Too many arguments: " ++ toString args.length ++
      " (maximum 100 allowed)"))
  else
    validate_args_loop 0 args

/-- Specification-level acceptability of a single argument: at most 1024
UTF-8 bytes and free of every dangerous character. -/
def argAcceptable (a : String) : Bool :=
  decide (a.utf8ByteSize ≤ 1024) && a.data.all (fun c => !(dangerous_chars_args.contains c))

/-- A string hitting any of the rejection conditions named by the claim on
`validate_command`: empty, containing a path separator, or containing a
shell metacharacter. -/
def command_rejectable (s : String) : Bool :=
  decide (s = "") || s.data.contains '/' || s.data.contains backslashChar ||
    s.data.any (fun c => dangerous_chars.contains c)

/-! ### Embedding of process_logs.rs: shell quoting -/

/-- From process_logs.rs: the character substitution performed by
`escape_shell_single_quote`, working on the character list of the string.
Each single quote becomes the five characters quote, double quote, quote,
double quote, quote. -/
def escList : List Char → List Char
  | [] => []
  | c :: t =>
    if c = squote then squote :: dquote :: squote :: dquote :: squote :: escList t
    else c :: escList t

/-- From process_logs.rs: `escape_shell_single_quote`. -/
def escape_shell_single_quote (s : String) : String := ⟨escList s.data⟩

/-- From process_logs.rs: `shell_quote`, wrapping the escaped string in
single quotes. -/
def shell_quote (s : String) : String := ⟨squote :: escList s.data ++ [squote]⟩

/-- Characters that a POSIX shell does not treat as literal when they occur
unquoted inside a word: whitespace, the command and redirection
metacharacters, expansion introducers and the globbing and comment
characters. Used by the shell word model below. -/
def shUnquotedSpecial (c : Char) : Bool :=
  c.isWhitespace ||
    [';', '&', '|', '<', '>', '(', ')', '$', backtick, backslashChar, '*', '?',
      '[', ']', '#', '~', '!', nulChar].contains c

/-- Parsing mode of the shell word model: outside quotes, inside single
quotes, inside double quotes. -/
inductive ShMode where
  | unquoted
  | insq
  | indq

/-- A conservative model of how a POSIX-compatible shell reads one word of
input: the result is `some w` exactly when the model certifies that the
shell interprets the token as the literal string `w`. Single quotes make
every character until the closing quote literal; double quotes make
characters literal but an embedded dollar, backtick or backslash would
trigger interpretation, so the model refuses to certify those; unquoted
characters are literal unless special (the model also declines to certify
an unquoted backslash escape). Unterminated quotes are refused. -/
def shWordInterp : ShMode → List Char → Option (List Char)
  | .unquoted, [] => some []
  | .insq, [] => none
  | .indq, [] => none
  | .unquoted, c :: t =>
    if c = squote then shWordInterp .insq t
    else if c = dquote then shWordInterp .indq t
    else if shUnquotedSpecial c then none
    else (shWordInterp .unquoted t).map (fun l => c :: l)
  | .insq, c :: t =>
    if c = squote then shWordInterp .unquoted t
    else (shWordInterp .insq t).map (fun l => c :: l)
  | .indq, c :: t =>
    if c = dquote then shWordInterp .unquoted t
    else if c = '$' || c = backtick || c = backslashChar then none
    else (shWordInterp .indq t).map (fun l => c :: l)

/-- Interpretation of a whole string as a single literal shell word. -/
def shellInterpretWord (s : String) : Option String :=
  (shWordInterp .unquoted s.data).map (fun l => ⟨l⟩)

/-! ### Embedding of process_logs.rs: shell flag selection in spawn_process_with_logs -/

/-- The semantics of the Rust iterator `str::split(sep)` on a character list:
splitting on a separator character, keeping empty pieces, with the empty
input producing one empty piece. -/
def rustSplitChar (sep : Char) : List Char → List (List Char)
  | [] => [[]]
  | c :: t =>
    if c = sep then [] :: rustSplitChar sep t
    else
      match rustSplitChar sep t with
      | [] => [[c]]
      | h :: r => (c :: h) :: r

/-- From process_logs.rs, spawn_process_with_logs: the shell name extraction
`shell_path.split(slash).last().unwrap_or(shell_path)`. -/
def shell_base_name (shell_path : String) : String :=
  match (rustSplitChar '/' shell_path.data).getLast? with
  | some b => ⟨b⟩
  | none => shell_path

/-- From process_logs.rs, spawn_process_with_logs: the flag choice for a
shell candidate, keyed on the base name of the shell path. -/
def shell_flags_for (shell_path : String) : List String :=
  let shell_name := shell_base_name shell_path
  if shell_name = "fish" then ["-c"]
  else if shell_name = "sh" then ["-c"]
  else ["-l", "-c"]

/-! ### Embedding of process.rs

The two functions kill_process_tree and detect_port_by_pid shell out to the
Unix utilities ps, pgrep, kill and lsof. Each external invocation is
modelled by a field of ProcEnv mapping the numeric argument of the call to
the outcome Rust observes: the outer Except is the io::Result of
Command::output (an error is a failure to spawn the utility), the success
flag is status.success(), and the inner Except is the String::from_utf8
conversion of the captured stdout. kill_process_tree additionally returns
the list of PIDs passed to the kill utility, in order, so that claims about
kill targets can be stated. The Rust ancestor walk is a while loop whose
termination relies on the finiteness of the OS parent chain; it takes an
explicit fuel argument here, and all theorems hold for every fuel. Rust
iterates the HashSet of discovered descendants in unspecified order; the
model uses insertion order. -/

deriving instance DecidableEq for Except

/-- The observable outcome of one external command invocation. -/
structure ProcOutput where
  success : Bool
  stdout : Except AppError String
deriving DecidableEq, Repr

/-- The environment of external observations made by process.rs. -/
structure ProcEnv where
  ps_exists : Nat → Except AppError ProcOutput
  ps_verify : Nat → Except AppError ProcOutput
  pgrep_children : Nat → Except AppError ProcOutput
  ps_ppid : Nat → Except AppError ProcOutput
  kill9 : Nat → Except AppError ProcOutput
  lsof_listen : Nat → Except AppError ProcOutput
  lsof_port : Nat → Except AppError ProcOutput
  current_pid : Nat
  parent_pid : Nat

/-- Accumulating decimal digit parser: fails on the first non-digit. -/
def parseDigitsAux : Nat → List Char → Option Nat
  | acc, [] => some acc
  | acc, c :: t =>
    if c.isDigit then parseDigitsAux (acc * 10 + (c.toNat - 48)) t else none

/-- The semantics of Rust str::parse for an unsigned integer type whose
maximum value is maxv: an optional leading plus sign, at least one digit,
no other characters, and no overflow. -/
def parseRustNat (maxv : Nat) (s : String) : Option Nat :=
  let body := match s.data with
    | c :: t => if c = '+' then t else c :: t
    | [] => []
  match body with
  | [] => none
  | _ :: _ =>
    match parseDigitsAux 0 body with
    | some v => if v ≤ maxv then some v else none
    | none => none

/-- Rust parse::<u32>. -/
def parseRustU32 (s : String) : Option Nat := parseRustNat 4294967295 s

/-- Rust parse::<u16>. -/
def parseRustU16 (s : String) : Option Nat := parseRustNat 65535 s

/-- Splitting a character list at every character satisfying a predicate,
keeping empty pieces, with the empty input producing one empty piece (the
semantics of the Rust split iterators). -/
def splitPred (p : Char → Bool) : List Char → List (List Char)
  | [] => [[]]
  | c :: t =>
    if p c then [] :: splitPred p t
    else
      match splitPred p t with
      | [] => [[c]]
      | h :: r => (c :: h) :: r

/-- One line of Rust str::lines: a single trailing carriage return is
stripped. -/
def stripCr (l : List Char) : List Char :=
  match l.getLast? with
  | some c => if c = crChar then l.dropLast else l
  | none => l

/-- The semantics of Rust str::lines: split on newline, strip one trailing
carriage return per line, and drop the final empty piece produced by a
trailing newline (so the empty string yields no lines). -/
def rustLines (s : String) : List String :=
  let parts := splitPred (fun c => c = nlChar) s.data
  let parts := if parts.getLast? = some [] then parts.dropLast else parts
  parts.map (fun l => (⟨stripCr l⟩ : String))

/-- The semantics of Rust str::trim: remove leading and trailing
whitespace. -/
def rustTrim (s : String) : String :=
  ⟨((s.data.dropWhile Char.isWhitespace).reverse.dropWhile Char.isWhitespace).reverse⟩

/-- The semantics of Rust str::split_whitespace: maximal runs of
non-whitespace characters. -/
def rustSplitWhitespace (s : String) : List String :=
  ((splitPred Char.isWhitespace s.data).filter
    (fun piece => !piece.isEmpty)).map (fun l => (⟨l⟩ : String))

/-- From process.rs, kill_process_tree lines 47 to 51 and detect_port_by_pid
lines 203 to 207: parse each pgrep output line as a u32 and keep those not
seen before, inserting them into the seen collection. Returns the grown
seen collection and the newly inserted children in output order. -/
def parse_child_lines (seen : List Nat) : List String → List Nat × List Nat
  | [] => (seen, [])
  | line :: rest =>
    match parseRustU32 (rustTrim line) with
    | none => parse_child_lines seen rest
    | some c =>
      if seen.contains c then parse_child_lines seen rest
      else
        let r := parse_child_lines (seen ++ [c]) rest
        (r.1, c :: r.2)

/-- One level of the breadth-first child discovery: run pgrep -P for every
parent of the current level, in order, threading the seen collection.
Returns the grown seen collection and the next level. Spawn and UTF-8
failures propagate, as in the Rust code, which applies the question mark
operator to both. -/
def pgrep_level (env : ProcEnv) : List Nat → List Nat → Except AppError (List Nat × List Nat)
  | seen, [] => .ok (seen, [])
  | seen, p :: ps => do
    let out ← env.pgrep_children p
    let s ← out.stdout
    let rest ← pgrep_level env (parse_child_lines seen (rustLines s)).1 ps
    .ok (rest.1, (parse_child_lines seen (rustLines s)).2 ++ rest.2)

/-- The bounded breadth-first descent shared by kill_process_tree (4 levels,
seen initialised to the root) and detect_port_by_pid (3 levels, seen
initialised empty): repeatedly expand the current level, stopping early
when a level is empty. The seen collection doubles as the accumulated
discovery list, since every discovered PID is inserted into it exactly
once, in discovery order. -/
def pgrep_descend (env : ProcEnv) : Nat → List Nat → List Nat → Except AppError (List Nat)
  | 0, acc, _ => .ok acc
  | fuel + 1, acc, cur =>
    if cur.isEmpty then .ok acc
    else do
      let r ← pgrep_level env acc cur
      if r.2.isEmpty then .ok r.1
      else pgrep_descend env fuel r.1 r.2

/-- From process.rs lines 26 to 63: the discovery list all_pids of
kill_process_tree, root first, then children in breadth-first order over
at most 4 levels. -/
def discover_pids (env : ProcEnv) (pid : Nat) : Except AppError (List Nat) :=
  pgrep_descend env 4 [pid] [pid]

/-- From process.rs lines 79 to 84: one parent lookup of the ancestor walk.
Both the spawn result and the UTF-8 conversion are absorbed with ok() in
the Rust code, so failures yield none. -/
def ancestor_step (env : ProcEnv) (q : Nat) : Option Nat :=
  ((env.ps_ppid q).toOption.bind (fun o => o.stdout.toOption)).bind
    (fun s => parseRustU32 (rustTrim s))

/-- From process.rs lines 70 to 96: the ancestor collection walk, starting
from the parent of the supervising process and walking ppid links while the
current ancestor is greater than 1, stopping on a failed lookup, a
self-referential parent, or a zero parent. The fuel bounds the walk; the
Rust loop terminates because OS parent chains are finite. -/
def compute_ancestors (env : ProcEnv) : Nat → Nat → List Nat
  | 0, _ => []
  | fuel + 1, a =>
    if a ≤ 1 then []
    else
      a :: (match ancestor_step env a with
        | some ppid =>
            if ppid = a ∨ ppid = 0 then []
            else compute_ancestors env fuel ppid
        | none => [])

def kill_fail_msg (pid : Nat) : String :=
  "Failed to kill process with PID " ++ toString pid

def not_found_msg (pid : Nat) : String :=
  "Process with PID " ++ toString pid ++ " does not exist"

/-- From process.rs lines 98 to 117: the kill loop over the reversed
discovery list. Returns the list of PIDs actually passed to kill, in
order, and the error produced by an unkillable root, if any. A PID equal
to the supervising process or contained in the ancestor collection is
skipped with no kill attempt; spawn failures of kill are ignored; a kill
reporting failure is ignored unless the PID is the requested root, in
which case the loop returns the error immediately. -/
def kill_pass (env : ProcEnv) (root curr : Nat) (ancs : List Nat) :
    List Nat → List Nat × Option AppError
  | [] => ([], none)
  | p :: rest =>
    if p = curr ∨ ancs.contains p then kill_pass env root curr ancs rest
    else
      match env.kill9 p with
      | .ok out =>
          if out.success = false ∧ p = root then
            ([p], some (.commandError (kill_fail_msg root)))
          else
            let r := kill_pass env root curr ancs rest
            (p :: r.1, r.2)
      | .error _ =>
          let r := kill_pass env root curr ancs rest
          (p :: r.1, r.2)

/-- From process.rs: kill_process_tree. Returns the Rust result together
with the ordered list of PIDs passed to the kill utility (the kill trace).
The existence check, discovery, ancestor walk, kill loop, and the
post-grace verification with its final forced retry follow the source; the
fuel feeds the ancestor walk. -/
def kill_process_tree (env : ProcEnv) (fuel : Nat) (pid : Nat) :
    Except AppError Unit × List Nat :=
  match env.ps_exists pid with
  | .error e => (.error e, [])
  | .ok ps_check =>
    if ps_check.success = false then
      (.error (.notFound (not_found_msg pid)), [])
    else
      match discover_pids env pid with
      | .error e => (.error e, [])
      | .ok all_pids =>
        let current_pid := env.current_pid
        let ancestor_pids := compute_ancestors env fuel env.parent_pid
        let r := kill_pass env pid current_pid ancestor_pids all_pids.reverse
        match r.2 with
        | some e => (.error e, r.1)
        | none =>
          if pid ≠ current_pid ∧ ¬ ancestor_pids.contains pid then
            match env.ps_verify pid with
            | .error e => (.error e, r.1)
            | .ok vout =>
                if vout.success then (.ok (), r.1 ++ [pid])
                else (.ok (), r.1)
          else (.ok (), r.1)

/-! ### Embedding of process.rs: detect_port_by_pid -/

/-- From process.rs lines 163 to 181 (first tier): extract a port from one
line of lsof output. The line must have at least 9 whitespace-separated
columns; the NAME column must contain a colon; the text after the last
colon, cut at the first space, must parse as a u16; and the port must be
positive. -/
def parse_lsof_listen_line (line : String) : Option Nat :=
  let parts := rustSplitWhitespace line
  if parts.length ≥ 9 then
    let name_part := parts.getD 8 ""
    if name_part.data.contains ':' then
      match (rustSplitChar ':' name_part.data).getLast? with
      | some port_chars =>
          let port_str : List Char := (rustSplitChar ' ' port_chars).headD port_chars
          match parseRustU16 ⟨port_str⟩ with
          | some port => if port > 0 then some port else none
          | none => none
      | none => none
    else none
  else none

/-- From process.rs lines 238 to 250 (second tier closure): the same
extraction written with combinators; the colon-containment pretest is
absent but the behaviour on colon-free columns is the same, because the
whole column then fails the numeric parse. -/
def parse_lsof_listen_line_t2 (line : String) : Option Nat :=
  let parts := rustSplitWhitespace line
  if parts.length < 9 then none
  else
    ((rustSplitChar ':' (parts.getD 8 "").data).getLast?).bind (fun port_chars =>
      (parseRustU16 ⟨(rustSplitChar ' ' port_chars).headD port_chars⟩).bind
        (fun port => if port > 0 then some port else none))

/-- First tier extraction over a whole lsof stdout: skip the header line,
first hit wins. -/
def extract_listen_port_t1 (out : String) : Option Nat :=
  ((rustLines out).drop 1).findSome? parse_lsof_listen_line

/-- Second tier extraction over a whole lsof stdout. -/
def extract_listen_port_t2 (out : String) : Option Nat :=
  ((rustLines out).drop 1).findSome? parse_lsof_listen_line_t2

/-- From process.rs lines 223 to 255: probe each discovered descendant with
lsof in turn, returning the first extracted port. -/
def find_child_port (env : ProcEnv) : List Nat → Except AppError (Option Nat)
  | [] => .ok none
  | c :: rest => do
    let out ← env.lsof_listen c
    let s ← out.stdout
    match extract_listen_port_t2 s with
    | some port => .ok (some port)
    | none => find_child_port env rest

/-- From process.rs lines 259 to 264: the well-known framework ports probed
by the third tier. -/
def test_ports : List Nat :=
  [4321, 4322, 4323, 4324, 4325,
   3000, 3001, 3002, 3003, 3004,
   5173, 5174, 5175, 5176, 5177,
   8000, 8001, 8002, 8003, 8004]

/-- From process.rs lines 282 to 301: walk the ppid chain of a process
found listening on a test port, for up to 5 levels, checking whether the
chain reaches the probed root or one of its discovered descendants. The ps
spawn failure propagates; a UTF-8 or parse failure of its output stops the
walk, as in the source, which applies ok() only to the conversion. -/
def ppid_walk (env : ProcEnv) (pid : Nat) (childs : List Nat) :
    Nat → Nat → Except AppError Bool
  | 0, _ => .ok false
  | fuel + 1, current => do
    let out ← env.ps_ppid current
    match out.stdout.toOption.bind (fun s => parseRustU32 (rustTrim s)) with
    | none => .ok false
    | some ppid =>
        if ppid = pid ∨ childs.contains ppid then .ok true
        else ppid_walk env pid childs fuel ppid

/-- From process.rs lines 276 to 303: scan the lsof -ti output lines for one
test port; a line parsing as a PID hits if it is the root, a discovered
descendant, or has one of those in its ppid chain. -/
def tier3_lines (env : ProcEnv) (pid : Nat) (childs : List Nat) :
    List String → Except AppError Bool
  | [] => .ok false
  | line :: rest =>
    match parseRustU32 (rustTrim line) with
    | none => tier3_lines env pid childs rest
    | some listening_pid =>
        if listening_pid = pid ∨ childs.contains listening_pid then .ok true
        else do
          let hit ← ppid_walk env pid childs 5 listening_pid
          if hit then .ok true else tier3_lines env pid childs rest

/-- The ownership cross-check of the third tier for one test port: list the
processes on the port and scan them. -/
def crosscheck (env : ProcEnv) (pid : Nat) (childs : List Nat) (tp : Nat) :
    Except AppError Bool := do
  let out ← env.lsof_port tp
  let s ← out.stdout
  tier3_lines env pid childs (rustLines s)

/-- From process.rs lines 270 to 304: try each test port in order, returning
the first port whose cross-check hits. -/
def tier3_ports (env : ProcEnv) (pid : Nat) (childs : List Nat) :
    List Nat → Except AppError (Option Nat)
  | [] => .ok none
  | tp :: rest => do
    let hit ← crosscheck env pid childs tp
    if hit then .ok (some tp) else tier3_ports env pid childs rest

/-- From process.rs: detect_port_by_pid. First tier: lsof on the root
itself. Second tier: breadth-first descendant discovery over 3 levels,
then lsof on each descendant. Third tier: well-known ports with the
ownership cross-check. Exhaustion of all tiers yields ok none. -/
def detect_port_by_pid (env : ProcEnv) (pid : Nat) :
    Except AppError (Option Nat) := do
  let out ← env.lsof_listen pid
  let s ← out.stdout
  match extract_listen_port_t1 s with
  | some port => .ok (some port)
  | none => do
    let childs ← pgrep_descend env 3 [] [pid]
    match ← find_child_port env childs with
    | some port => .ok (some port)
    | none => tier3_ports env pid childs test_ports

/-! ### Theorems about kill_process_tree -/

/-- The protection predicate of the kill loop: a PID differing from the
supervising process and outside the ancestor collection. -/
def killAllowed (curr : Nat) (ancs : List Nat) (p : Nat) : Bool :=
  !(p == curr) && !(ancs.contains p)

/-- A benign environment: every external utility spawns, succeeds, and
produces empty UTF-8 output; the supervisor is PID 999 with parent 998. -/
def envSimple : ProcEnv :=
  ⟨fun _ => .ok ⟨true, .ok ""⟩, fun _ => .ok ⟨true, .ok ""⟩,
   fun _ => .ok ⟨true, .ok ""⟩, fun _ => .ok ⟨true, .ok ""⟩,
   fun _ => .ok ⟨true, .ok ""⟩, fun _ => .ok ⟨true, .ok ""⟩,
   fun _ => .ok ⟨true, .ok ""⟩, 999, 998⟩

/-! ### Claim C4: which inspection failures propagate -/

/-- An environment in which every utility behaves benignly except that the
pgrep utility cannot be spawned at all. -/
def envPgrepSpawnFail : ProcEnv :=
  ⟨fun _ => .ok ⟨true, .ok ""⟩, fun _ => .ok ⟨true, .ok ""⟩,
   fun _ => .error (.ioError "failed to spawn pgrep"), fun _ => .ok ⟨true, .ok ""⟩,
   fun _ => .ok ⟨true, .ok ""⟩, fun _ => .ok ⟨true, .ok ""⟩,
   fun _ => .ok ⟨true, .ok ""⟩, 999, 998⟩

/-- A call whose spawn succeeded and whose captured output decoded as
UTF-8; the exit status and the text are arbitrary. -/
def CallOk (r : Except AppError ProcOutput) : Prop :=
  ∃ o s, r = .ok o ∧ o.stdout = .ok s

/-- An environment in which every external utility can be spawned and
always produces UTF-8 decodable output, with arbitrary exit statuses and
text. -/
def EnvTotal (env : ProcEnv) : Prop :=
  (∀ q, CallOk (env.ps_exists q)) ∧ (∀ q, CallOk (env.ps_verify q)) ∧
    (∀ q, CallOk (env.pgrep_children q)) ∧ (∀ q, CallOk (env.ps_ppid q)) ∧
    (∀ q, CallOk (env.kill9 q)) ∧ (∀ q, CallOk (env.lsof_listen q)) ∧
    (∀ q, CallOk (env.lsof_port q))

/-- An environment whose lsof listing for any PID reports one process
listening on TCP port 4321. -/
def envPort : ProcEnv :=
  ⟨fun _ => .ok ⟨true, .ok ""⟩, fun _ => .ok ⟨true, .ok ""⟩,
   fun _ => .ok ⟨true, .ok ""⟩, fun _ => .ok ⟨true, .ok ""⟩,
   fun _ => .ok ⟨true, .ok ""⟩,
   fun _ => .ok ⟨true, .ok "COMMAND PID USER FD TYPE DEVICE SIZE NODE NAME\nnode 12345 user 30u IPv4 0x0 0t0 TCP *:4321"⟩,
   fun _ => .ok ⟨true, .ok ""⟩, 999, 998⟩

/-! ### Theorems about validation.rs -/

theorem isOk_ok {ε α : Type} (a : α) : (Except.ok a : Except ε α).isOk = true := rfl

theorem isOk_error {ε α : Type} (e : ε) : (Except.error e : Except ε α).isOk = false := rfl

theorem check_arg_isOk (i : Nat) (a : String) :
    (check_arg i a).isOk = argAcceptable a := by
  unfold check_arg argAcceptable
  by_cases h : a.utf8ByteSize > 1024
  · rw [if_pos h]
    have hn : ¬ a.utf8ByteSize ≤ 1024 := by omega
    rw [isOk_error, decide_eq_false hn, Bool.false_and]
  · rw [if_neg h]
    have hle : a.utf8ByteSize ≤ 1024 := by omega
    rw [decide_eq_true hle, Bool.true_and]
    cases hf : a.data.find? (fun c => dangerous_chars_args.contains c) with
    | none =>
        have hno := List.find?_eq_none.mp hf
        rw [isOk_ok]
        symm
        rw [List.all_eq_true]
        intro c hc
        simpa using hno c hc
    | some c =>
        have hmem := List.find?_some hf
        have hc := List.mem_of_find?_eq_some hf
        rw [isOk_error]
        symm
        rw [Bool.eq_false_iff]
        intro hall
        rw [List.all_eq_true] at hall
        have hni := hall c hc
        rw [hmem] at hni
        exact Bool.false_ne_true hni

theorem validate_args_loop_isOk (args : List String) :
    ∀ i, (validate_args_loop i args).isOk = args.all argAcceptable := by
  induction args with
  | nil => intro i; rw [validate_args_loop, List.all_nil, isOk_ok]
  | cons a rest ih =>
      intro i
      rw [validate_args_loop, List.all_cons]
      cases hc : check_arg i a with
      | error e =>
          have harg := check_arg_isOk i a
          rw [hc, isOk_error] at harg
          rw [isOk_error, ← harg, Bool.false_and]
      | ok u =>
          have harg := check_arg_isOk i a
          rw [hc, isOk_ok] at harg
          rw [← harg, Bool.true_and, ih (i + 1)]

theorem contains_allowed_iff (s : String) :
    ALLOWED_COMMANDS.contains s = true ↔
      s = "npm" ∨ s = "pnpm" ∨ s = "yarn" ∨ s = "bun" ∨ s = "deno" := by
  simp [ALLOWED_COMMANDS]

/-- Claim C3: `validate_command` accepts exactly the five whitelist members
npm, pnpm, yarn, bun and deno, matched exactly and case-sensitively, and it
rejects every string that is empty, contains a path separator, or contains a
shell metacharacter from the dangerous set. -/
theorem validate_command_whitelist_exact (s : String) :
    (validate_command s).isOk = ALLOWED_COMMANDS.contains s ∧
      (command_rejectable s && (validate_command s).isOk) = false := by
  have part1 : (validate_command s).isOk = ALLOWED_COMMANDS.contains s := by
    unfold validate_command
    by_cases h1 : s = ""
    · rw [if_pos h1, isOk_error]
      subst h1
      decide
    · rw [if_neg h1]
      by_cases h2 : (s.data.contains '/' || s.data.contains backslashChar) = true
      · rw [if_pos h2, isOk_error]
        symm
        rw [Bool.eq_false_iff]
        intro hc
        rcases (contains_allowed_iff s).mp hc with h | h | h | h | h <;>
          (subst h; exact absurd h2 (by decide))
      · rw [if_neg h2]
        by_cases h3 : (s.data.any (fun c => dangerous_chars.contains c)) = true
        · rw [if_pos h3, isOk_error]
          symm
          rw [Bool.eq_false_iff]
          intro hc
          rcases (contains_allowed_iff s).mp hc with h | h | h | h | h <;>
            (subst h; exact absurd h3 (by decide))
        · rw [if_neg h3]
          by_cases h4 : ALLOWED_COMMANDS.contains s = true
          · rw [if_neg (by rw [h4]; decide), isOk_ok, h4]
          · rw [if_pos (by rw [Bool.not_eq_true] at h4; rw [h4]; rfl), isOk_error]
            symm
            rw [Bool.eq_false_iff]
            exact h4
  refine ⟨part1, ?_⟩
  cases hOk : (validate_command s).isOk with
  | false => rw [Bool.and_false]
  | true =>
      rw [Bool.and_true]
      rw [hOk] at part1
      rcases (contains_allowed_iff s).mp part1.symm with h | h | h | h | h <;>
        (subst h; decide)

/-- Claim C7: `validate_command_args` accepts an argument list exactly when it
has at most 100 elements and every element is at most 1024 bytes long and
contains no dangerous character (the command metacharacter set plus NUL); in
particular the equals sign is allowed, so an argument such as the literal
option assignment of a port number is accepted. -/
theorem validate_command_args_iff (args : List String) :
    (validate_command_args args).isOk =
        (decide (args.length ≤ 100) && args.all argAcceptable) ∧
      (validate_command_args ["--port=4321"]).isOk = true := by
  constructor
  · unfold validate_command_args
    by_cases h : args.length > 100
    · rw [if_pos h, isOk_error, decide_eq_false (by omega : ¬ args.length ≤ 100),
        Bool.false_and]
    · rw [if_neg h, decide_eq_true (by omega : args.length ≤ 100), Bool.true_and,
        validate_args_loop_isOk]
  · decide

/-- Claim C10: `validate_pid` accepts exactly the PIDs from 1 to 10000000
inclusive; it rejects 0 and everything above the cap, and it accepts PID 1,
so this function alone does not protect callers from targeting init. -/
theorem validate_pid_range (pid : Nat) :
    (validate_pid pid).isOk = (decide (1 ≤ pid) && decide (pid ≤ 10000000)) ∧
      validate_pid 1 = .ok 1 := by
  constructor
  · unfold validate_pid
    by_cases h0 : pid = 0
    · subst h0; decide
    · rw [if_neg h0]
      by_cases hbig : pid > 10000000
      · rw [if_pos hbig, isOk_error,
          decide_eq_false (by omega : ¬ pid ≤ 10000000), Bool.and_false]
      · rw [if_neg hbig, isOk_ok, decide_eq_true (by omega : 1 ≤ pid),
          decide_eq_true (by omega : pid ≤ 10000000)]
        rfl
  · rfl

theorem shWordInterp_unquoted_squote (r : List Char) :
    shWordInterp .unquoted (squote :: r) = shWordInterp .insq r := rfl

theorem shWordInterp_insq_escList (l : List Char) :
    shWordInterp .insq (escList l ++ [squote]) = some l := by
  induction l with
  | nil => decide
  | cons c t ih =>
      have hds : ¬ (dquote = squote) := by decide
      have hsd : ¬ (squote = dquote) := by decide
      have hsdollar : ¬ (squote = '$') := by decide
      have hsbt : ¬ (squote = backtick) := by decide
      have hsbs : ¬ (squote = backslashChar) := by decide
      by_cases hc : c = squote
      · subst hc
        rw [escList, if_pos rfl]
        simp only [List.cons_append]
        simp [shWordInterp, shWordInterp_unquoted_squote, ih, hds, hsd, hsdollar, hsbt, hsbs]
      · rw [escList, if_neg hc]
        simp only [List.cons_append]
        simp [shWordInterp, hc, ih]

/-- Claim C2: for every string s, `shell_quote` produces a token that the
POSIX shell word model interprets as exactly the literal s, including the
empty string, strings consisting only of single quotes, and strings
containing shell metacharacters. -/
theorem shell_quote_roundtrip (s : String) :
    shellInterpretWord (shell_quote s) = some s := by
  cases s with
  | mk data =>
      have h : shWordInterp .unquoted (squote :: escList data ++ [squote]) = some data := by
        rw [List.cons_append, shWordInterp_unquoted_squote,
          shWordInterp_insq_escList]
      show (shWordInterp .unquoted (squote :: escList data ++ [squote])).map
          (fun l => (⟨l⟩ : String)) = some ⟨data⟩
      rw [h]
      rfl

theorem rustSplitChar_ne_nil (sep : Char) (l : List Char) :
    rustSplitChar sep l ≠ [] := by
  cases l with
  | nil => simp [rustSplitChar]
  | cons c t =>
      rw [rustSplitChar]
      by_cases h : c = sep
      · rw [if_pos h]; simp
      · rw [if_neg h]
        cases rustSplitChar sep t <;> simp

theorem rustSplitChar_no_sep (sep : Char) (m : List Char) (hm : sep ∉ m) :
    rustSplitChar sep m = [m] := by
  induction m with
  | nil => rfl
  | cons c t ih =>
      rw [rustSplitChar,
        if_neg (fun h => hm (by rw [← h]; exact List.mem_cons_self c t)),
        ih (fun h => hm (List.mem_cons_of_mem c h))]

theorem rustSplitChar_length_two (sep : Char) (l : List Char) (h : sep ∈ l) :
    2 ≤ (rustSplitChar sep l).length := by
  induction l with
  | nil => cases h
  | cons c t ih =>
      rw [rustSplitChar]
      by_cases hc : c = sep
      · rw [if_pos hc]
        have := rustSplitChar_ne_nil sep t
        cases hr : rustSplitChar sep t with
        | nil => exact absurd hr this
        | cons a r => simp
      · rw [if_neg hc]
        have ht : sep ∈ t := by
          cases List.mem_cons.mp h with
          | inl h0 => exact absurd h0.symm hc
          | inr h0 => exact h0
        have h2 := ih ht
        cases hr : rustSplitChar sep t with
        | nil => exact absurd hr (rustSplitChar_ne_nil sep t)
        | cons a r =>
            rw [hr] at h2
            simpa using h2

theorem rustSplitChar_getLast_after_sep (sep : Char) (l m : List Char)
    (hm : sep ∉ m) :
    (rustSplitChar sep (l ++ sep :: m)).getLast? = some m := by
  induction l with
  | nil =>
      rw [List.nil_append, rustSplitChar, if_pos rfl, rustSplitChar_no_sep sep m hm]
      rfl
  | cons c t ih =>
      rw [List.cons_append, rustSplitChar]
      by_cases hc : c = sep
      · rw [if_pos hc]
        cases hr : rustSplitChar sep (t ++ sep :: m) with
        | nil => exact absurd hr (rustSplitChar_ne_nil sep _)
        | cons a r =>
            rw [hr] at ih
            rw [List.getLast?_cons_cons]
            exact ih
      · rw [if_neg hc]
        have hsep : sep ∈ t ++ sep :: m := List.mem_append_right t (List.mem_cons_self sep m)
        have h2 := rustSplitChar_length_two sep (t ++ sep :: m) hsep
        cases hr : rustSplitChar sep (t ++ sep :: m) with
        | nil => exact absurd hr (rustSplitChar_ne_nil sep _)
        | cons a r =>
            rw [hr] at ih h2
            cases r with
            | nil => simp at h2
            | cons b r2 =>
                rw [List.getLast?_cons_cons] at ih
                rw [List.getLast?_cons_cons]
                exact ih

/-- Claim C9: for every shell candidate path of the form dir slash name where
the final component name contains no slash, the invocation flags are chosen
from the base name alone: base name fish or sh gets command-mode flags only,
and every other base name gets login plus command flags. The choice is by
exact equality on the base name, not by substring matching. -/
theorem shell_flags_by_base_name (dir name : String)
    (hname : name.data.contains '/' = false) :
    shell_base_name (dir ++ "/" ++ name) = name ∧
      shell_flags_for (dir ++ "/" ++ name) =
        (if name = "fish" ∨ name = "sh" then ["-c"] else ["-l", "-c"]) := by
  have hdata : (dir ++ "/" ++ name).data = dir.data ++ '/' :: name.data := by
    rw [String.data_append, String.data_append]
    show dir.data ++ ['/'] ++ name.data = dir.data ++ '/' :: name.data
    rw [List.append_assoc]
    rfl
  have hnot : '/' ∉ name.data := by
    intro hmem
    rw [List.contains_eq_any_beq] at hname
    have : name.data.any (fun x => '/' == x) = true :=
      List.any_eq_true.mpr ⟨'/', hmem, by simp⟩
    rw [this] at hname
    cases hname
  have hbase : shell_base_name (dir ++ "/" ++ name) = name := by
    unfold shell_base_name
    rw [hdata, rustSplitChar_getLast_after_sep '/' dir.data name.data hnot]
  refine ⟨hbase, ?_⟩
  unfold shell_flags_for
  rw [hbase]
  by_cases hf : name = "fish"
  · rw [if_pos hf, if_pos (Or.inl hf)]
  · rw [if_neg hf]
    by_cases hs : name = "sh"
    · rw [if_pos hs, if_pos (Or.inr hs)]
    · rw [if_neg hs, if_neg (by rintro (h | h) <;> [exact hf h; exact hs h])]

/-- Witness for claim C9: a fish shell found in a nonstandard directory is
recognised by its base name and invoked with command-mode flags only, even
though the path also textually contains sh as a substring. -/
theorem shell_flags_by_base_name_witness :
    ("/usr/local/bin/fish" : String).data.contains '/' = true ∧
      shell_base_name ("/usr/local/bin" ++ "/" ++ "fish") = "fish" ∧
      shell_flags_for ("/usr/local/bin" ++ "/" ++ "fish") = ["-c"] := by
  have h := shell_flags_by_base_name "/usr/local/bin" "fish" (by decide)
  exact ⟨by decide, h.1, h.2.trans (if_pos (Or.inl rfl))⟩

theorem kill_pass_trace_safe (env : ProcEnv) (root curr : Nat) (ancs : List Nat) :
    ∀ l, ((kill_pass env root curr ancs l).1).all (killAllowed curr ancs) = true := by
  intro l
  induction l with
  | nil => rfl
  | cons p rest ih =>
      rw [kill_pass]
      by_cases hskip : p = curr ∨ ancs.contains p
      · rw [if_pos hskip]
        exact ih
      · rw [if_neg hskip]
        push_neg at hskip
        have hp : killAllowed curr ancs p = true := by
          unfold killAllowed
          rw [Bool.and_eq_true, Bool.not_eq_eq_eq_not, Bool.not_eq_eq_eq_not]
          constructor
          · simpa using hskip.1
          · simpa using hskip.2
        cases hk : env.kill9 p with
        | ok out =>
            dsimp only
            by_cases hfail : out.success = false ∧ p = root
            · rw [if_pos hfail]
              simpa using hp
            · rw [if_neg hfail]
              rw [List.all_cons, hp, Bool.true_and]
              exact ih
        | error e =>
            dsimp only
            rw [List.all_cons, hp, Bool.true_and]
            exact ih

/-- Claim C1: no kill attempt issued by kill_process_tree ever targets the
supervising process itself or any PID in the ancestor collection it
computed, in the main kill pass or in the post-grace forced retry,
regardless of the requested PID and of what the process tree walk
discovered; in the model this is exactly the statement that the calling
process and its ancestors survive the call. -/
theorem kill_tree_never_targets_self_or_ancestors
    (env : ProcEnv) (fuel pid : Nat) :
    ((kill_process_tree env fuel pid).2).all
      (killAllowed env.current_pid (compute_ancestors env fuel env.parent_pid)) = true := by
  unfold kill_process_tree
  cases hps : env.ps_exists pid with
  | error e => rfl
  | ok ps_check =>
      dsimp only
      by_cases hsucc : ps_check.success = false
      · rw [if_pos hsucc]
        rfl
      · rw [if_neg hsucc]
        cases hd : discover_pids env pid with
        | error e => rfl
        | ok all_pids =>
            dsimp only
            cases hr : (kill_pass env pid env.current_pid
                (compute_ancestors env fuel env.parent_pid) all_pids.reverse).2 with
            | some e =>
                dsimp only
                have := kill_pass_trace_safe env pid env.current_pid
                  (compute_ancestors env fuel env.parent_pid) all_pids.reverse
                simpa using this
            | none =>
                dsimp only
                by_cases hg : pid ≠ env.current_pid ∧
                    ¬ (compute_ancestors env fuel env.parent_pid).contains pid
                · rw [if_pos hg]
                  have hsafe := kill_pass_trace_safe env pid env.current_pid
                    (compute_ancestors env fuel env.parent_pid) all_pids.reverse
                  have hpid : killAllowed env.current_pid
                      (compute_ancestors env fuel env.parent_pid) pid = true := by
                    unfold killAllowed
                    rw [Bool.and_eq_true, Bool.not_eq_eq_eq_not, Bool.not_eq_eq_eq_not]
                    constructor
                    · simpa using hg.1
                    · simpa using hg.2
                  cases hv : env.ps_verify pid with
                  | error e => simpa using hsafe
                  | ok vout =>
                      dsimp only
                      by_cases hvs : vout.success = true
                      · rw [if_pos hvs]
                        rw [List.all_append, hsafe, Bool.true_and]
                        simpa using hpid
                      · rw [if_neg hvs]
                        simpa using hsafe
                · rw [if_neg hg]
                  have := kill_pass_trace_safe env pid env.current_pid
                    (compute_ancestors env fuel env.parent_pid) all_pids.reverse
                  simpa using this

theorem except_bind_ok {ε α β : Type} (a : α) (f : α → Except ε β) :
    (Except.ok a : Except ε α) >>= f = f a := rfl

theorem except_bind_error {ε α β : Type} (e : ε) (f : α → Except ε β) :
    (Except.error e : Except ε α) >>= f = Except.error e := rfl

theorem killAllowed_iff (curr : Nat) (ancs : List Nat) (p : Nat) :
    killAllowed curr ancs p = true ↔ (p ≠ curr ∧ ancs.contains p = false) := by
  unfold killAllowed
  rw [Bool.and_eq_true, Bool.not_eq_eq_eq_not, Bool.not_eq_eq_eq_not]
  constructor
  · intro h
    exact ⟨by simpa using h.1, by simpa using h.2⟩
  · intro h
    exact ⟨by simpa using h.1, by simpa using h.2⟩

theorem contains_eq_false_append_left (l m : List Nat) (x : Nat)
    (h : ((l ++ m).contains x) = false) : l.contains x = false := by
  rw [Bool.eq_false_iff] at h ⊢
  intro hc
  exact h (List.elem_iff.mpr (List.mem_append_left m (List.elem_iff.mp hc)))

theorem parse_child_lines_acc (ls : List String) :
    ∀ seen, (parse_child_lines seen ls).1 = seen ++ (parse_child_lines seen ls).2 := by
  induction ls with
  | nil => intro seen; simp [parse_child_lines]
  | cons line rest ih =>
      intro seen
      rw [parse_child_lines]
      cases hp : parseRustU32 (rustTrim line) with
      | none => exact ih seen
      | some c =>
          dsimp only
          by_cases hc : seen.contains c = true
          · rw [if_pos hc]
            exact ih seen
          · rw [if_neg hc]
            dsimp only
            rw [ih (seen ++ [c]), List.append_assoc]
            rfl

theorem parse_child_lines_fresh (ls : List String) :
    ∀ seen x, x ∈ (parse_child_lines seen ls).2 → seen.contains x = false := by
  induction ls with
  | nil => intro seen x hx; simp [parse_child_lines] at hx
  | cons line rest ih =>
      intro seen x hx
      rw [parse_child_lines] at hx
      cases hp : parseRustU32 (rustTrim line) with
      | none => rw [hp] at hx; exact ih seen x hx
      | some c =>
          rw [hp] at hx
          dsimp only at hx
          by_cases hc : seen.contains c = true
          · rw [if_pos hc] at hx
            exact ih seen x hx
          · rw [if_neg hc] at hx
            dsimp only at hx
            cases List.mem_cons.mp hx with
            | inl hxc =>
                subst hxc
                exact Bool.not_eq_true _ ▸ (Bool.eq_false_iff.mpr hc)
            | inr hxr =>
                have := ih (seen ++ [c]) x hxr
                exact contains_eq_false_append_left seen [c] x this

theorem pgrep_level_spec (env : ProcEnv) (cur : List Nat) :
    ∀ seen r, pgrep_level env seen cur = .ok r →
      r.1 = seen ++ r.2 ∧ ∀ x ∈ r.2, seen.contains x = false := by
  induction cur with
  | nil =>
      intro seen r h
      rw [pgrep_level] at h
      injection h with h
      subst h
      exact ⟨by simp, by intro x hx; simp at hx⟩
  | cons p ps ih =>
      intro seen r h
      rw [pgrep_level] at h
      cases hout : env.pgrep_children p with
      | error e => rw [hout, except_bind_error] at h; cases h
      | ok out =>
          rw [hout, except_bind_ok] at h
          cases hstd : out.stdout with
          | error e => rw [hstd, except_bind_error] at h; cases h
          | ok s =>
              rw [hstd, except_bind_ok] at h
              cases hrest : pgrep_level env (parse_child_lines seen (rustLines s)).1 ps with
              | error e => rw [hrest, except_bind_error] at h; cases h
              | ok rest =>
                  rw [hrest, except_bind_ok] at h
                  injection h with h
                  subst h
                  have hacc := parse_child_lines_acc (rustLines s) seen
                  have hfresh := parse_child_lines_fresh (rustLines s) seen
                  have hrec := ih (parse_child_lines seen (rustLines s)).1 rest hrest
                  constructor
                  · dsimp only
                    rw [hrec.1, hacc, List.append_assoc]
                  · intro x hx
                    dsimp only at hx
                    cases List.mem_append.mp hx with
                    | inl h1 => exact hfresh x h1
                    | inr h2 =>
                        have := hrec.2 x h2
                        rw [hacc] at this
                        exact contains_eq_false_append_left seen _ x this

theorem pgrep_descend_spec (env : ProcEnv) :
    ∀ fuel cur acc d, pgrep_descend env fuel acc cur = .ok d →
      ∃ ext, d = acc ++ ext ∧ ∀ x ∈ ext, acc.contains x = false := by
  intro fuel
  induction fuel with
  | zero =>
      intro cur acc d h
      rw [pgrep_descend] at h
      injection h with h
      subst h
      exact ⟨[], by simp, by intro x hx; simp at hx⟩
  | succ n ih =>
      intro cur acc d h
      rw [pgrep_descend] at h
      by_cases hcur : cur.isEmpty = true
      · rw [if_pos hcur] at h
        injection h with h
        subst h
        exact ⟨[], by simp, by intro x hx; simp at hx⟩
      · rw [if_neg hcur] at h
        cases hlev : pgrep_level env acc cur with
        | error e => rw [hlev, except_bind_error] at h; cases h
        | ok r =>
            rw [hlev, except_bind_ok] at h
            have hspec := pgrep_level_spec env cur acc r hlev
            by_cases hr2 : r.2.isEmpty = true
            · rw [if_pos hr2] at h
              injection h with h
              subst h
              refine ⟨r.2, hspec.1, hspec.2⟩
            · rw [if_neg hr2] at h
              obtain ⟨ext2, hd2, hf2⟩ := ih r.2 r.1 d h
              refine ⟨r.2 ++ ext2, ?_, ?_⟩
              · rw [hd2, hspec.1, List.append_assoc]
              · intro x hx
                cases List.mem_append.mp hx with
                | inl h1 => exact hspec.2 x h1
                | inr h2 =>
                    have := hf2 x h2
                    rw [hspec.1] at this
                    exact contains_eq_false_append_left acc _ x this

theorem discover_pids_shape (env : ProcEnv) (pid : Nat) (d : List Nat)
    (h : discover_pids env pid = .ok d) :
    ∃ ext, d = pid :: ext ∧ pid ∉ ext := by
  obtain ⟨ext, hd, hf⟩ := pgrep_descend_spec env 4 [pid] [pid] d h
  refine ⟨ext, by simpa using hd, ?_⟩
  intro hmem
  have := hf pid hmem
  simp at this

theorem kill_pass_no_skip (env : ProcEnv) (root curr : Nat) (ancs : List Nat) :
    ∀ l, (∀ p ∈ l, killAllowed curr ancs p = true) →
      (∀ p ∈ l.dropLast, p ≠ root) →
      (kill_pass env root curr ancs l).1 = l := by
  intro l
  induction l with
  | nil => intro _ _; rfl
  | cons p rest ih =>
      intro hall hro
      have hp := (killAllowed_iff curr ancs p).mp (hall p (List.mem_cons_self p rest))
      rw [kill_pass, if_neg (by rintro (h | h) <;> [exact hp.1 h; (rw [hp.2] at h; cases h)])]
      cases env.kill9 p with
      | ok out =>
          dsimp only
          by_cases hfail : out.success = false ∧ p = root
          · cases rest with
            | nil => rw [if_pos hfail]
            | cons q qs =>
                exfalso
                have hmem : p ∈ (p :: q :: qs).dropLast := by
                  rw [List.dropLast_cons₂]
                  exact List.mem_cons_self p _
                exact hro p hmem hfail.2
          · rw [if_neg hfail]
            dsimp only
            rw [ih (fun q hq => hall q (List.mem_cons_of_mem p hq))
              (fun q hq => ?_)]
            cases rest with
            | nil => cases hq
            | cons a as =>
                apply hro q
                rw [List.dropLast_cons₂]
                exact List.mem_cons_of_mem p hq
      | error e =>
          dsimp only
          rw [ih (fun q hq => hall q (List.mem_cons_of_mem p hq))
            (fun q hq => ?_)]
          cases rest with
          | nil => cases hq
          | cons a as =>
              apply hro q
              rw [List.dropLast_cons₂]
              exact List.mem_cons_of_mem p hq

/-- Claim C5: when no protected PID occurs among the discovered tree (the
normal case, since the supervisor and its ancestors are not part of a
supervised process tree), the sequence of kill targets of
kill_process_tree is exactly the reverse of the breadth-first discovery
sequence, possibly followed by the single post-grace forced retry on the
root, so the root is the last tree member targeted. -/
theorem kill_tree_reverse_discovery_order
    (env : ProcEnv) (fuel pid : Nat) (all_pids : List Nat) (o : ProcOutput)
    (hps : env.ps_exists pid = .ok o) (hs : o.success = true)
    (hd : discover_pids env pid = .ok all_pids)
    (hsafe : all_pids.all
      (killAllowed env.current_pid (compute_ancestors env fuel env.parent_pid)) = true) :
    ((kill_process_tree env fuel pid).2 = all_pids.reverse ∨
      (kill_process_tree env fuel pid).2 = all_pids.reverse ++ [pid]) ∧
      (kill_process_tree env fuel pid).2.getLast? = some pid := by
  obtain ⟨ext, hshape, hextpid⟩ := discover_pids_shape env pid all_pids hd
  have hallmem : ∀ p ∈ all_pids.reverse,
      killAllowed env.current_pid (compute_ancestors env fuel env.parent_pid) p = true := by
    intro p hp
    exact List.all_eq_true.mp hsafe p (List.mem_reverse.mp hp)
  have hdrop : ∀ p ∈ all_pids.reverse.dropLast, p ≠ pid := by
    intro p hp
    rw [hshape, List.reverse_cons, List.dropLast_concat] at hp
    intro hcontra
    subst hcontra
    exact hextpid (List.mem_reverse.mp hp)
  have htrace : (kill_pass env pid env.current_pid
      (compute_ancestors env fuel env.parent_pid) all_pids.reverse).1 = all_pids.reverse :=
    kill_pass_no_skip env pid env.current_pid _ all_pids.reverse hallmem hdrop
  have hpidmem : pid ∈ all_pids := by
    rw [hshape]; exact List.mem_cons_self pid ext
  have hpidallowed := (killAllowed_iff env.current_pid
    (compute_ancestors env fuel env.parent_pid) pid).mp (List.all_eq_true.mp hsafe pid hpidmem)
  have hmain : (kill_process_tree env fuel pid).2 = all_pids.reverse ∨
      (kill_process_tree env fuel pid).2 = all_pids.reverse ++ [pid] := by
    unfold kill_process_tree
    rw [hps]
    dsimp only
    rw [if_neg (by simp [hs]), hd]
    dsimp only
    cases hr2 : (kill_pass env pid env.current_pid
        (compute_ancestors env fuel env.parent_pid) all_pids.reverse).2 with
    | some e =>
        dsimp only
        exact Or.inl htrace
    | none =>
        dsimp only
        rw [if_pos ⟨hpidallowed.1, by simpa using hpidallowed.2⟩]
        cases env.ps_verify pid with
        | error e => exact Or.inl htrace
        | ok vout =>
            dsimp only
            by_cases hvs : vout.success = true
            · rw [if_pos hvs]
              right
              dsimp only
              rw [htrace]
            · rw [if_neg hvs]
              exact Or.inl htrace
  refine ⟨hmain, ?_⟩
  cases hmain with
  | inl h =>
      rw [h, hshape, List.reverse_cons]
      exact List.getLast?_concat _
  | inr h =>
      rw [h]
      exact List.getLast?_concat _

/-- Witness for claim C5: in the benign environment, killing PID 5 (which
has no children) discovers the singleton tree, kills it in reverse order,
and the forced retry targets the root again, so the root is the last
target. -/
theorem kill_tree_reverse_discovery_order_witness :
    (envSimple.ps_exists 5 = .ok ⟨true, .ok ""⟩ ∧
      discover_pids envSimple 5 = .ok [5] ∧
      ([5].all (killAllowed envSimple.current_pid
        (compute_ancestors envSimple 3 envSimple.parent_pid))) = true) ∧
      ((kill_process_tree envSimple 3 5).2 = [5].reverse ∨
        (kill_process_tree envSimple 3 5).2 = [5].reverse ++ [5]) ∧
      (kill_process_tree envSimple 3 5).2.getLast? = some 5 :=
  ⟨⟨rfl, rfl, by decide⟩,
    kill_tree_reverse_discovery_order envSimple 3 5 [5] ⟨true, .ok ""⟩ rfl rfl rfl (by decide)⟩

/-- Counterexample to claim C4 as stated: when the tree-walking utility
pgrep fails to spawn, both kill_process_tree and detect_port_by_pid return
that error to the caller, even though the root PID exists, every kill
succeeds, and the failure has nothing to do with killing or verifying the
root; the kill trace is empty, so the error does not come from a root kill
attempt. -/
theorem inspection_spawn_failure_propagates :
    kill_process_tree envPgrepSpawnFail 3 42 =
        (.error (.ioError "failed to spawn pgrep"), []) ∧
      detect_port_by_pid envPgrepSpawnFail 42 =
        .error (.ioError "failed to spawn pgrep") := by
  constructor
  · rfl
  · rfl

theorem kill_pass_err_shape (env : ProcEnv) (root curr : Nat) (ancs : List Nat) :
    ∀ l, (kill_pass env root curr ancs l).2 = none ∨
      (kill_pass env root curr ancs l).2 = some (.commandError (kill_fail_msg root)) := by
  intro l
  induction l with
  | nil => exact Or.inl rfl
  | cons p rest ih =>
      rw [kill_pass]
      by_cases hskip : p = curr ∨ ancs.contains p
      · rw [if_pos hskip]
        exact ih
      · rw [if_neg hskip]
        cases env.kill9 p with
        | ok out =>
            dsimp only
            by_cases hfail : out.success = false ∧ p = root
            · rw [if_pos hfail]
              exact Or.inr rfl
            · rw [if_neg hfail]
              exact ih
        | error e =>
            dsimp only
            exact ih

theorem pgrep_level_total (env : ProcEnv)
    (hpg : ∀ q, CallOk (env.pgrep_children q)) :
    ∀ cur seen, ∃ r, pgrep_level env seen cur = .ok r := by
  intro cur
  induction cur with
  | nil => intro seen; exact ⟨_, rfl⟩
  | cons p ps ih =>
      intro seen
      obtain ⟨o, s, ho, hs⟩ := hpg p
      obtain ⟨rest, hrest⟩ := ih (parse_child_lines seen (rustLines s)).1
      refine ⟨(rest.1, (parse_child_lines seen (rustLines s)).2 ++ rest.2), ?_⟩
      rw [pgrep_level, ho, except_bind_ok, hs, except_bind_ok, hrest, except_bind_ok]

theorem pgrep_descend_total (env : ProcEnv)
    (hpg : ∀ q, CallOk (env.pgrep_children q)) :
    ∀ fuel acc cur, ∃ d, pgrep_descend env fuel acc cur = .ok d := by
  intro fuel
  induction fuel with
  | zero => intro acc cur; exact ⟨acc, rfl⟩
  | succ n ih =>
      intro acc cur
      rw [pgrep_descend]
      by_cases hcur : cur.isEmpty = true
      · rw [if_pos hcur]
        exact ⟨acc, rfl⟩
      · rw [if_neg hcur]
        obtain ⟨r, hr⟩ := pgrep_level_total env hpg cur acc
        rw [hr, except_bind_ok]
        by_cases hr2 : r.2.isEmpty = true
        · rw [if_pos hr2]
          exact ⟨r.1, rfl⟩
        · rw [if_neg hr2]
          exact ih r.1 r.2

theorem find_child_port_total (env : ProcEnv)
    (hls : ∀ q, CallOk (env.lsof_listen q)) :
    ∀ cs, ∃ res, find_child_port env cs = .ok res := by
  intro cs
  induction cs with
  | nil => exact ⟨none, rfl⟩
  | cons c rest ih =>
      obtain ⟨o, s, ho, hs⟩ := hls c
      rw [find_child_port, ho, except_bind_ok, hs, except_bind_ok]
      cases extract_listen_port_t2 s with
      | some port => exact ⟨some port, rfl⟩
      | none => exact ih

theorem ppid_walk_total (env : ProcEnv) (pid : Nat) (cs : List Nat)
    (hpp : ∀ q, CallOk (env.ps_ppid q)) :
    ∀ fuel cur, ∃ b, ppid_walk env pid cs fuel cur = .ok b := by
  intro fuel
  induction fuel with
  | zero => intro cur; exact ⟨false, rfl⟩
  | succ n ih =>
      intro cur
      obtain ⟨o, s, ho, hs⟩ := hpp cur
      rw [ppid_walk, ho, except_bind_ok]
      cases o.stdout.toOption.bind (fun t => parseRustU32 (rustTrim t)) with
      | none => exact ⟨false, rfl⟩
      | some ppid =>
          dsimp only
          by_cases hhit : ppid = pid ∨ cs.contains ppid
          · rw [if_pos hhit]
            exact ⟨true, rfl⟩
          · rw [if_neg hhit]
            exact ih ppid

theorem tier3_lines_total (env : ProcEnv) (pid : Nat) (cs : List Nat)
    (hpp : ∀ q, CallOk (env.ps_ppid q)) :
    ∀ ls, ∃ b, tier3_lines env pid cs ls = .ok b := by
  intro ls
  induction ls with
  | nil => exact ⟨false, rfl⟩
  | cons line rest ih =>
      rw [tier3_lines]
      cases parseRustU32 (rustTrim line) with
      | none => exact ih
      | some listening_pid =>
          dsimp only
          by_cases hhit : listening_pid = pid ∨ cs.contains listening_pid
          · rw [if_pos hhit]
            exact ⟨true, rfl⟩
          · rw [if_neg hhit]
            obtain ⟨b, hb⟩ := ppid_walk_total env pid cs hpp 5 listening_pid
            rw [hb, except_bind_ok]
            cases b with
            | true => exact ⟨true, rfl⟩
            | false => exact ih

theorem tier3_ports_total (env : ProcEnv) (pid : Nat) (cs : List Nat)
    (hlp : ∀ q, CallOk (env.lsof_port q)) (hpp : ∀ q, CallOk (env.ps_ppid q)) :
    ∀ ports, ∃ res, tier3_ports env pid cs ports = .ok res := by
  intro ports
  induction ports with
  | nil => exact ⟨none, rfl⟩
  | cons tp rest ih =>
      obtain ⟨o, s, ho, hs⟩ := hlp tp
      obtain ⟨b, hb⟩ := tier3_lines_total env pid cs hpp (rustLines s)
      rw [tier3_ports]
      rw [show crosscheck env pid cs tp = .ok b from by
        rw [crosscheck, ho, except_bind_ok, hs, except_bind_ok, hb]]
      rw [except_bind_ok]
      cases b with
      | true => exact ⟨some tp, rfl⟩
      | false => exact ih

/-- Claim C4 amended, positive half: whenever every external inspection
utility spawns and yields UTF-8 output, non-success exit statuses and
arbitrary (even garbage) output never produce an error: kill_process_tree
can then only return success, the not-found error for the requested root,
or the failed-to-kill error for the requested root, and detect_port_by_pid
always returns successfully. -/
theorem inspection_failures_swallowed_when_tools_spawn
    (env : ProcEnv) (fuel pid : Nat) (h : EnvTotal env) :
    ((kill_process_tree env fuel pid).1 = .ok () ∨
      (kill_process_tree env fuel pid).1 = .error (.notFound (not_found_msg pid)) ∨
      (kill_process_tree env fuel pid).1 = .error (.commandError (kill_fail_msg pid))) ∧
      (detect_port_by_pid env pid).isOk = true := by
  obtain ⟨hex, hver, hpg, hpp, hkill, hls, hlp⟩ := h
  constructor
  · obtain ⟨o, s, ho, hs⟩ := hex pid
    unfold kill_process_tree
    rw [ho]
    dsimp only
    by_cases hsucc : o.success = false
    · rw [if_pos hsucc]
      exact Or.inr (Or.inl rfl)
    · rw [if_neg hsucc]
      obtain ⟨d, hd⟩ := pgrep_descend_total env hpg 4 [pid] [pid]
      rw [show discover_pids env pid = .ok d from hd]
      dsimp only
      cases hshape : (kill_pass env pid env.current_pid
          (compute_ancestors env fuel env.parent_pid) d.reverse).2 with
      | some e =>
          dsimp only
          cases kill_pass_err_shape env pid env.current_pid
              (compute_ancestors env fuel env.parent_pid) d.reverse with
          | inl hnone => rw [hshape] at hnone; cases hnone
          | inr hsome =>
              rw [hshape] at hsome
              injection hsome with hsome
              subst hsome
              exact Or.inr (Or.inr rfl)
      | none =>
          dsimp only
          by_cases hg : pid ≠ env.current_pid ∧
              ¬ (compute_ancestors env fuel env.parent_pid).contains pid
          · rw [if_pos hg]
            obtain ⟨vo, vs, hvo, hvs⟩ := hver pid
            rw [hvo]
            dsimp only
            by_cases hvsucc : vo.success = true
            · rw [if_pos hvsucc]
              exact Or.inl rfl
            · rw [if_neg hvsucc]
              exact Or.inl rfl
          · rw [if_neg hg]
            exact Or.inl rfl
  · obtain ⟨o, s, ho, hs⟩ := hls pid
    unfold detect_port_by_pid
    rw [ho, except_bind_ok, hs, except_bind_ok]
    cases extract_listen_port_t1 s with
    | some port => rfl
    | none =>
        dsimp only
        obtain ⟨cs, hcs⟩ := pgrep_descend_total env hpg 3 [] [pid]
        rw [hcs, except_bind_ok]
        obtain ⟨res, hres⟩ := find_child_port_total env hls cs
        rw [hres, except_bind_ok]
        cases res with
        | some port => rfl
        | none =>
            dsimp only
            obtain ⟨r3, hr3⟩ := tier3_ports_total env pid cs hlp hpp test_ports
            rw [hr3]
            rfl

/-- Witness for the amended claim C4: the benign environment satisfies the
spawn-and-decode condition, and there both conclusions hold concretely. -/
theorem inspection_failures_swallowed_witness :
    EnvTotal envSimple ∧
      ((kill_process_tree envSimple 3 7).1 = .ok () ∨
        (kill_process_tree envSimple 3 7).1 = .error (.notFound (not_found_msg 7)) ∨
        (kill_process_tree envSimple 3 7).1 = .error (.commandError (kill_fail_msg 7))) ∧
      (detect_port_by_pid envSimple 7).isOk = true := by
  have htot : EnvTotal envSimple :=
    ⟨fun q => ⟨⟨true, .ok ""⟩, "", rfl, rfl⟩, fun q => ⟨⟨true, .ok ""⟩, "", rfl, rfl⟩,
     fun q => ⟨⟨true, .ok ""⟩, "", rfl, rfl⟩, fun q => ⟨⟨true, .ok ""⟩, "", rfl, rfl⟩,
     fun q => ⟨⟨true, .ok ""⟩, "", rfl, rfl⟩, fun q => ⟨⟨true, .ok ""⟩, "", rfl, rfl⟩,
     fun q => ⟨⟨true, .ok ""⟩, "", rfl, rfl⟩⟩
  exact ⟨htot, inspection_failures_swallowed_when_tools_spawn envSimple 3 7 htot⟩

/-! ### Claim C6: exhausting all tiers yields a successful empty result -/

theorem find_child_port_none (env : ProcEnv)
    (hls : ∀ q, ∃ o s, env.lsof_listen q = .ok o ∧ o.stdout = .ok s ∧
      extract_listen_port_t2 s = none) :
    ∀ cs, find_child_port env cs = .ok none := by
  intro cs
  induction cs with
  | nil => rfl
  | cons c rest ih =>
      obtain ⟨o, s, ho, hs, hex⟩ := hls c
      rw [find_child_port, ho, except_bind_ok, hs, except_bind_ok, hex]
      exact ih

theorem tier3_ports_none (env : ProcEnv) (pid : Nat) (cs : List Nat)
    (hcc : ∀ tp, crosscheck env pid cs tp = .ok false) :
    ∀ ports, tier3_ports env pid cs ports = .ok none := by
  intro ports
  induction ports with
  | nil => rfl
  | cons tp rest ih =>
      rw [tier3_ports, hcc tp, except_bind_ok]
      exact ih

/-- Claim C6: detect_port_by_pid returns ok none, not an error, whenever
the root has no extractable listening socket, no discovered descendant has
one, and the well-known-port ownership cross-check succeeds for no test
port: exhausting all three tiers is a successful empty result. -/
theorem detect_port_exhausted_tiers_ok_none (env : ProcEnv) (pid : Nat)
    (hls : ∀ q, ∃ o s, env.lsof_listen q = .ok o ∧ o.stdout = .ok s ∧
      extract_listen_port_t1 s = none ∧ extract_listen_port_t2 s = none)
    (hpg : ∀ q, CallOk (env.pgrep_children q))
    (hcc : ∀ cs tp, crosscheck env pid cs tp = .ok false) :
    detect_port_by_pid env pid = .ok none := by
  obtain ⟨o, s, ho, hs, ht1, ht2⟩ := hls pid
  unfold detect_port_by_pid
  rw [ho, except_bind_ok, hs, except_bind_ok, ht1]
  dsimp only
  obtain ⟨cs, hcs⟩ := pgrep_descend_total env hpg 3 [] [pid]
  rw [hcs, except_bind_ok]
  rw [find_child_port_none env (fun q => by
    obtain ⟨o2, s2, ho2, hs2, _, hx2⟩ := hls q
    exact ⟨o2, s2, ho2, hs2, hx2⟩) cs, except_bind_ok]
  exact tier3_ports_none env pid cs (hcc cs) test_ports

/-- Witness for claim C6: in the benign environment every lsof listing is
empty and every cross-check misses, and the probe of PID 7 returns ok
none. -/
theorem detect_port_exhausted_tiers_witness :
    (∀ q, ∃ o s, envSimple.lsof_listen q = .ok o ∧ o.stdout = .ok s ∧
        extract_listen_port_t1 s = none ∧ extract_listen_port_t2 s = none) ∧
      (∀ cs tp, crosscheck envSimple 7 cs tp = .ok false) ∧
      detect_port_by_pid envSimple 7 = .ok none := by
  have hls : ∀ q, ∃ o s, envSimple.lsof_listen q = .ok o ∧ o.stdout = .ok s ∧
      extract_listen_port_t1 s = none ∧ extract_listen_port_t2 s = none :=
    fun q => ⟨⟨true, .ok ""⟩, "", rfl, rfl, rfl, rfl⟩
  have hcc : ∀ cs tp, crosscheck envSimple 7 cs tp = .ok false := fun cs tp => rfl
  refine ⟨hls, hcc, ?_⟩
  exact detect_port_exhausted_tiers_ok_none envSimple 7 hls
    (fun q => ⟨⟨true, .ok ""⟩, "", rfl, rfl⟩) hcc

/-! ### Claim C8: every returned port is a positive 16-bit value -/

theorem parseRustNat_le (maxv : Nat) (s : String) (v : Nat)
    (h : parseRustNat maxv s = some v) : v ≤ maxv := by
  unfold parseRustNat at h
  cases hb : (match s.data with
      | c :: t => if c = '+' then t else c :: t
      | [] => ([] : List Char)) with
  | nil => rw [hb] at h; cases h
  | cons d t =>
      rw [hb] at h
      dsimp only at h
      cases hp : parseDigitsAux 0 (d :: t) with
      | none => rw [hp] at h; cases h
      | some w =>
          rw [hp] at h
          dsimp only at h
          by_cases hle : w ≤ maxv
          · rw [if_pos hle] at h
            injection h with h
            subst h
            exact hle
          · rw [if_neg hle] at h
            cases h

theorem parse_lsof_listen_line_bounds (line : String) (p : Nat)
    (h : parse_lsof_listen_line line = some p) : 0 < p ∧ p ≤ 65535 := by
  unfold parse_lsof_listen_line at h
  by_cases hlen : (rustSplitWhitespace line).length ≥ 9
  · rw [if_pos hlen] at h
    by_cases hcol : ((rustSplitWhitespace line).getD 8 "").data.contains ':' = true
    · rw [if_pos hcol] at h
      cases hlast : (rustSplitChar ':' ((rustSplitWhitespace line).getD 8 "").data).getLast? with
      | none => rw [hlast] at h; cases h
      | some port_chars =>
          rw [hlast] at h
          dsimp only at h
          cases hp : parseRustU16 ⟨(rustSplitChar ' ' port_chars).headD port_chars⟩ with
          | none => rw [hp] at h; cases h
          | some port =>
              rw [hp] at h
              dsimp only at h
              by_cases hpos : port > 0
              · rw [if_pos hpos] at h
                injection h with h
                subst h
                exact ⟨hpos, parseRustNat_le 65535 _ port hp⟩
              · rw [if_neg hpos] at h
                cases h
    · rw [if_neg hcol] at h
      cases h
  · rw [if_neg hlen] at h
    cases h

theorem parse_lsof_listen_line_t2_bounds (line : String) (p : Nat)
    (h : parse_lsof_listen_line_t2 line = some p) : 0 < p ∧ p ≤ 65535 := by
  unfold parse_lsof_listen_line_t2 at h
  by_cases hlen : (rustSplitWhitespace line).length < 9
  · rw [if_pos hlen] at h
    cases h
  · rw [if_neg hlen] at h
    cases hlast : (rustSplitChar ':' ((rustSplitWhitespace line).getD 8 "").data).getLast? with
    | none => rw [hlast] at h; cases h
    | some port_chars =>
        rw [hlast] at h
        dsimp only [Option.bind] at h
        cases hp : parseRustU16 ⟨(rustSplitChar ' ' port_chars).headD port_chars⟩ with
        | none => rw [hp] at h; cases h
        | some port =>
            rw [hp] at h
            dsimp only at h
            by_cases hpos : port > 0
            · rw [if_pos hpos] at h
              injection h with h
              subst h
              exact ⟨hpos, parseRustNat_le 65535 _ port hp⟩
            · rw [if_neg hpos] at h
              cases h

theorem extract_listen_port_t1_bounds (out : String) (p : Nat)
    (h : extract_listen_port_t1 out = some p) : 0 < p ∧ p ≤ 65535 := by
  obtain ⟨line, hmem, hline⟩ := List.exists_of_findSome?_eq_some h
  exact parse_lsof_listen_line_bounds line p hline

theorem extract_listen_port_t2_bounds (out : String) (p : Nat)
    (h : extract_listen_port_t2 out = some p) : 0 < p ∧ p ≤ 65535 := by
  obtain ⟨line, hmem, hline⟩ := List.exists_of_findSome?_eq_some h
  exact parse_lsof_listen_line_t2_bounds line p hline

theorem find_child_port_bounds (env : ProcEnv) :
    ∀ cs p, find_child_port env cs = .ok (some p) → 0 < p ∧ p ≤ 65535 := by
  intro cs
  induction cs with
  | nil =>
      intro p h
      rw [find_child_port] at h
      cases h
  | cons c rest ih =>
      intro p h
      rw [find_child_port] at h
      cases ho : env.lsof_listen c with
      | error e => rw [ho, except_bind_error] at h; cases h
      | ok o =>
          rw [ho, except_bind_ok] at h
          cases hs : o.stdout with
          | error e => rw [hs, except_bind_error] at h; cases h
          | ok s =>
              rw [hs, except_bind_ok] at h
              cases hex : extract_listen_port_t2 s with
              | some port =>
                  rw [hex] at h
                  dsimp only at h
                  injection h with h
                  injection h with h
                  subst h
                  exact extract_listen_port_t2_bounds s _ hex
              | none =>
                  rw [hex] at h
                  exact ih p h

theorem tier3_ports_mem (env : ProcEnv) (pid : Nat) (cs : List Nat) :
    ∀ ports p, tier3_ports env pid cs ports = .ok (some p) → p ∈ ports := by
  intro ports
  induction ports with
  | nil =>
      intro p h
      rw [tier3_ports] at h
      cases h
  | cons tp rest ih =>
      intro p h
      rw [tier3_ports] at h
      cases hcc : crosscheck env pid cs tp with
      | error e => rw [hcc, except_bind_error] at h; cases h
      | ok b =>
          rw [hcc, except_bind_ok] at h
          cases b with
          | true =>
              rw [if_pos rfl] at h
              injection h with h
              injection h with h
              subst h
              exact List.mem_cons_self tp rest
          | false =>
              rw [if_neg (by decide)] at h
              exact List.mem_cons_of_mem tp (ih p h)

/-- Claim C8: every port value returned by detect_port_by_pid is a positive
16-bit integer, in every tier: the direct parse on the root, the parse on
each descendant, and the well-known-port fallback all accept only positive
values that fit in a u16, so the function never returns ok (some 0) and
never a value above 65535. -/
theorem detect_port_positive_u16 (env : ProcEnv) (pid p : Nat)
    (h : detect_port_by_pid env pid = .ok (some p)) : 0 < p ∧ p ≤ 65535 := by
  unfold detect_port_by_pid at h
  cases ho : env.lsof_listen pid with
  | error e => rw [ho, except_bind_error] at h; cases h
  | ok o =>
      rw [ho, except_bind_ok] at h
      cases hs : o.stdout with
      | error e => rw [hs, except_bind_error] at h; cases h
      | ok s =>
          rw [hs, except_bind_ok] at h
          cases hex : extract_listen_port_t1 s with
          | some port =>
              rw [hex] at h
              dsimp only at h
              injection h with h
              injection h with h
              subst h
              exact extract_listen_port_t1_bounds s _ hex
          | none =>
              rw [hex] at h
              dsimp only at h
              cases hcs : pgrep_descend env 3 [] [pid] with
              | error e => rw [hcs, except_bind_error] at h; cases h
              | ok cs =>
                  rw [hcs, except_bind_ok] at h
                  cases hf : find_child_port env cs with
                  | error e => rw [hf, except_bind_error] at h; cases h
                  | ok res =>
                      rw [hf, except_bind_ok] at h
                      cases res with
                      | some port =>
                          dsimp only at h
                          injection h with h
                          injection h with h
                          subst h
                          exact find_child_port_bounds env cs _ hf
                      | none =>
                          dsimp only at h
                          have hmem := tier3_ports_mem env pid cs test_ports p h
                          have hbounds : ∀ x ∈ test_ports, 0 < x ∧ x ≤ 65535 := by decide
                          exact hbounds p hmem

/-- Witness for claim C8: the singleton lsof listing yields port 4321, and
the theorem gives its bounds. -/
theorem detect_port_positive_u16_witness :
    detect_port_by_pid envPort 7 = .ok (some 4321) ∧ 0 < 4321 ∧ 4321 ≤ 65535 := by
  have h : detect_port_by_pid envPort 7 = .ok (some 4321) := by decide
  exact ⟨h, detect_port_positive_u16 envPort 7 4321 h⟩

end ProjectManager

